import Mathlib

/-!
Verification of the ai-blu-demo ingestion / retrieval pipeline.

This file shallowly embeds the Python code of the repository:

* `chunk_text` embeds the sliding-window chunker
  (`src/ingestion/chunking.py:11-25`, identical to
  `RAGPipeline.chunk_text` in `src/ingestion/ingest.py:190-223` and
  `src/ingest.py:69-102` up to the default overlap value).
  Texts are lists of characters; Python integers are `Int` (the loop
  variable `start` can become negative); Python slice / `rfind` index
  normalisation is modelled by `pyIdx`; `str.strip` is modelled on the
  ASCII whitespace characters.  The `while` loop is embedded with an
  explicit fuel parameter: `none` means the fuel was exhausted, and a
  result that is `none` for every fuel witnesses non-termination.
* The ingestion orchestrators (`RAGPipeline.ingest_from_s3`,
  `RAGPipeline._process_and_store`, `RAGPipeline.ingest_data` from
  `src/ingestion/ingest.py`, and the legacy per-chunk variant
  `RAGPipeline.ingest_data` from `src/ingest.py`) are embedded with the
  external collaborators (document converter, embedding model) passed as
  function parameters; the MongoDB collection is a list of records, a
  record is an association list of field name / value pairs, and every
  batch call to the embedding model is logged in a call trace.  An
  uncaught Python exception during the processing of one document is
  modelled by an `Option PyErr` component of the result: the embedded
  loops stop exactly where the Python loops would have been aborted.
* The hybrid retrieval query of `VectorProbe.hybrid_search`
  (`src/ingestion/vector_probe.py:18-88`) constructs a MongoDB
  aggregation; the server-side semantics of that aggregation is not part
  of the repository and is modelled from the specification (weighted
  reciprocal-rank fusion of the two limited arms, descending sort,
  projection onto the three result fields).
-/

/-- The whitespace characters stripped by Python `str.strip()`
(restricted to ASCII, which is all the development needs). -/
def isPySpace (c : Char) : Bool :=
  c = ' ' || c = '\t' || c = '\n' || c = '\r' || c = '\x0b' || c = '\x0c'

/-- Python `str.strip()`: drop leading and trailing whitespace. -/
def pyStrip (l : List Char) : List Char :=
  ((l.dropWhile isPySpace).reverse.dropWhile isPySpace).reverse

/-- Python slice-index normalisation: a negative index counts from the
end of the string, and the result is clamped to `[0, len]`.  Used by
slices and by the `start`/`end` arguments of `str.rfind`. -/
def pyIdx (l : List Char) (i : Int) : Nat :=
  (min (max (if i < 0 then (l.length : Int) + i else i) 0) (l.length : Int)).toNat

/-- Python `text[a:b]`. -/
def pySlice (l : List Char) (a b : Int) : List Char :=
  (l.drop (pyIdx l a)).take (pyIdx l b - pyIdx l a)

/-- Scan the positions `s, s+1, ..., s+n-1` of `l` from the top down and
return the largest one holding a space character. -/
def rfindCnt (l : List Char) (s : Nat) : Nat → Option Nat
  | 0 => none
  | n + 1 => if l.getD (s + n) 'x' = ' ' then some (s + n) else rfindCnt l s n

/-- Python `text.rfind(" ", a, b)`: the largest index of a space
character in the normalised window, `none` standing for `-1`. -/
def pyRfindSpace (l : List Char) (a b : Int) : Option Nat :=
  rfindCnt l (pyIdx l a) (pyIdx l b - pyIdx l a)

/-- The chunk-boundary computation of the chunker
(`src/ingestion/chunking.py:17-20`): the window end is
`start + max_chars`; if that falls strictly before the end of the text
it is snapped left to the last space in the window, when there is one. -/
def snapEnd (l : List Char) (start maxChars : Int) : Int :=
  let e := start + maxChars
  if e < (l.length : Int) then
    match pyRfindSpace l start e with
    | some j => (j : Int)
    | none => e
  else e

/-- The chunk a loop iteration considers:
`chunk = text[start:end].strip()` (`src/ingestion/chunking.py:21`). -/
def emitChunk (l : List Char) (start maxChars : Int) : List Char :=
  pyStrip (pySlice l start (snapEnd l start maxChars))

/-- `if len(chunk) > 20: chunks.append(chunk)`
(`src/ingestion/chunking.py:22`). -/
def nextAcc (l : List Char) (start maxChars : Int) (acc : List (List Char)) :
    List (List Char) :=
  if 20 < (emitChunk l start maxChars).length then acc ++ [emitChunk l start maxChars]
  else acc

/-- `start = end - overlap; if start >= end: start = end + 1`
(`src/ingestion/chunking.py:23-24`). -/
def nextStart (l : List Char) (start maxChars overlap : Int) : Int :=
  if snapEnd l start maxChars - overlap ≥ snapEnd l start maxChars then
    snapEnd l start maxChars + 1
  else snapEnd l start maxChars - overlap

/-- The `while start < len(text)` loop of `chunk_text`
(`src/ingestion/chunking.py:16-24`), with an explicit fuel: `none`
means the fuel ran out before the loop exited. -/
def chunkLoop (l : List Char) (maxChars overlap : Int) :
    Nat → Int → List (List Char) → Option (List (List Char))
  | 0, _, _ => none
  | fuel + 1, start, acc =>
    if start < (l.length : Int) then
      chunkLoop l maxChars overlap fuel (nextStart l start maxChars overlap)
        (nextAcc l start maxChars acc)
    else some acc

/-- `chunk_text(text, max_chars, overlap)` from
`src/ingestion/chunking.py:11-25` (also `RAGPipeline.chunk_text`):
a text no longer than `max_chars` yields its trimmed form when longer
than 20 characters and nothing otherwise; a longer text is scanned by
`chunkLoop` starting at 0 with an empty accumulator. -/
def chunk_text (fuel : Nat) (text : List Char) (maxChars overlap : Int) :
    Option (List (List Char)) :=
  if (text.length : Int) ≤ maxChars then
    some (if 20 < (pyStrip text).length then [pyStrip text] else [])
  else chunkLoop text maxChars overlap fuel 0 []

/-! ## The ingestion pipeline of `src/ingestion/ingest.py` -/

/-- A field value of a stored chunk record. -/
inductive Val where
  | str : List Char → Val
  | nat : Nat → Val
  | vec : List Int → Val
  | time : Nat → Val
  | rat : ℚ → Val
deriving DecidableEq

/-- A chunk record: an association list of field names and values,
modelling the Python dicts inserted into the MongoDB collection. -/
abbrev Record := List (String × Val)

def fFileName : String := "file_name"
def fChunkId : String := "chunk_id"
def fText : String := "text"
def fEmbedding : String := "embedding"
def fIngestedAt : String := "ingested_at"
def fScore : String := "score"

/-- An uncaught Python exception raised while processing one document
(e.g. by the external document converter). -/
inductive PyErr where
  | conversionError : PyErr
deriving DecidableEq

/-- The mutable state an ingestion run touches: the collection contents
(`self.collection`) and the trace of the argument of every call to the
embedding model (`self.embed_model.encode`). -/
structure SState where
  store : List Record
  calls : List (List (List Char))
deriving DecidableEq

/-- The record list built by `RAGPipeline._process_and_store`
(`src/ingestion/ingest.py:176-185`): five fields, `chunk_id` the chunk's
position, `embedding` the batch-encoding result at the same position.
The per-record `time.time()` calls are modelled by one timestamp. -/
def buildPayloadS3 (name : List Char) (chunks : List (List Char))
    (embs : List (List Int)) (now : Nat) : List Record :=
  chunks.enum.map fun p =>
    [(fFileName, Val.str name), (fChunkId, Val.nat p.1), (fText, Val.str p.2),
     (fEmbedding, Val.vec (embs.getD p.1 [])), (fIngestedAt, Val.time now)]

/-- The record list built by `RAGPipeline.ingest_data`
(`src/ingestion/ingest.py:243-251`): four fields — this payload carries
no `ingested_at` field. -/
def buildPayloadLocal (name : List Char) (chunks : List (List Char))
    (embs : List (List Int)) : List Record :=
  chunks.enum.map fun p =>
    [(fFileName, Val.str name), (fChunkId, Val.nat p.1), (fText, Val.str p.2),
     (fEmbedding, Val.vec (embs.getD p.1 []))]

/-- `RAGPipeline._process_and_store` (`src/ingestion/ingest.py:164-188`):
convert (download and conversion are modelled by `conv`, which may raise),
chunk with the method defaults `max_chars=800, overlap=100`, return early
on an empty chunk list, otherwise encode all chunks in one batch call and
append the payload to the collection.  A raised exception is returned in
the second component with the state untouched, mirroring propagation. -/
def processAndStore (conv : List Char → Except PyErr (List Char))
    (encode : List (List Char) → List (List Int)) (fuel now : Nat)
    (key : List Char) (st : SState) : Option (SState × Option PyErr) :=
  match conv key with
  | .error e => some (st, some e)
  | .ok content =>
    match chunk_text fuel content 800 100 with
    | none => none
    | some chunks =>
      if chunks = [] then some (st, none)
      else
        some (⟨st.store ++ buildPayloadS3 key chunks (encode chunks) now,
               st.calls ++ [chunks]⟩, none)

/-- Python `key.lower().endswith(".pdf")` (`src/ingestion/ingest.py:138`). -/
def isPdfKey (k : List Char) : Bool :=
  List.isSuffixOf ('.' :: 'p' :: 'd' :: 'f' :: []) (k.map Char.toLower)

/-- The per-object loop of `RAGPipeline.ingest_from_s3`
(`src/ingestion/ingest.py:136-162`): skip keys that are not PDFs,
process the rest; an exception raised for one key aborts the loop. -/
def s3IngestLoop (conv : List Char → Except PyErr (List Char))
    (encode : List (List Char) → List (List Int)) (fuel now : Nat) :
    List (List Char) → SState → Option (SState × Option PyErr)
  | [], st => some (st, none)
  | k :: rest, st =>
    if isPdfKey k then
      match processAndStore conv encode fuel now k st with
      | none => none
      | some (st', some e) => some (st', some e)
      | some (st', none) => s3IngestLoop conv encode fuel now rest st'
    else s3IngestLoop conv encode fuel now rest st

/-- `RAGPipeline.ingest_from_s3` (`src/ingestion/ingest.py:118-162`) from
the object listing on: `listing = none` models a response without a
`Contents` key (the early return at line 131); otherwise the collection
is cleared (`delete_many({})`, line 134) and the keys are processed. -/
def ingestFromS3 (conv : List Char → Except PyErr (List Char))
    (encode : List (List Char) → List (List Int)) (fuel now : Nat)
    (listing : Option (List (List Char))) (st : SState) :
    Option (SState × Option PyErr) :=
  match listing with
  | none => some (st, none)
  | some keys => s3IngestLoop conv encode fuel now keys ⟨[], st.calls⟩

/-- The per-document loop of `RAGPipeline.ingest_data`
(`src/ingestion/ingest.py:232-257`): convert, chunk with
`max_chars=800, overlap=150`, and for a non-empty chunk list batch-encode
once and insert the four-field payload; an exception raised for one
document aborts the loop. -/
def localIngestLoop (conv : List Char → Except PyErr (List Char))
    (encode : List (List Char) → List (List Int)) (fuel : Nat) :
    List (List Char) → SState → Option (SState × Option PyErr)
  | [], st => some (st, none)
  | d :: rest, st =>
    match conv d with
    | .error e => some (st, some e)
    | .ok content =>
      match chunk_text fuel content 800 150 with
      | none => none
      | some chunks =>
        if chunks = [] then localIngestLoop conv encode fuel rest st
        else localIngestLoop conv encode fuel rest
          ⟨st.store ++ buildPayloadLocal d chunks (encode chunks),
           st.calls ++ [chunks]⟩

/-- `RAGPipeline.ingest_data` (`src/ingestion/ingest.py:225-257`): an
empty document list returns immediately (line 227-228) without touching
the collection; otherwise the collection is cleared (`delete_many({})`,
line 230) and every document is processed. -/
def ingestData (conv : List Char → Except PyErr (List Char))
    (encode : List (List Char) → List (List Int)) (fuel : Nat)
    (docs : List (List Char)) (st : SState) : Option (SState × Option PyErr) :=
  match docs with
  | [] => some (st, none)
  | _ :: _ => localIngestLoop conv encode fuel docs ⟨[], st.calls⟩

/-- The legacy `RAGPipeline.ingest_data` of `src/ingest.py:114-134`,
restricted to one document: it builds the payload in a per-chunk loop
with one embedding-model call per chunk
(`self.embed_model.encode(text)`, line 128).  The second component is
the call trace — one singleton argument list per invocation. -/
def legacyIngestDoc (encodeOne : List Char → List Int) (fuel : Nat)
    (name content : List Char) :
    Option (List Record × List (List (List Char))) :=
  match chunk_text fuel content 800 150 with
  | none => none
  | some chunks =>
    some (chunks.enum.map fun p =>
      [(fFileName, Val.str name), (fChunkId, Val.nat p.1), (fText, Val.str p.2),
       (fEmbedding, Val.vec (encodeOne p.2))],
      chunks.map fun t => [t])

/-! ## The hybrid retrieval query of `src/ingestion/vector_probe.py`

`VectorProbe.hybrid_search` builds a `$rankFusion` aggregation whose
vector arm is limited to `limit` results (the `$vectorSearch` `limit`
parameter, line 37) and whose keyword arm is limited to `limit` results
(the `$limit` stage, line 52), with combination weights 0.6 and 0.4
(lines 57-62, modelled by the exact rationals 3/5 and 2/5), followed by
a `$project` stage keeping `file_name`, `text` and the score meta field
(lines 65-72).  The aggregation is executed by the MongoDB server, which
is not part of the repository; its semantics below is modelled from the
spec (§4.5): weighted reciprocal-rank fusion over the union of the two
arms' candidates, sorted by descending fused score, then projected. -/

/-- A stored document as the two retrieval arms rank it (only the
projected fields and an identity are relevant). -/
structure SDoc where
  sid : Nat
  file_name : List Char
  text : List Char
deriving DecidableEq

/-- The 0-based rank of a document within one arm's result list. -/
def armRank (l : List SDoc) (d : SDoc) : Option Nat :=
  l.findIdx? fun x => decide (x = d)

/-- Modelled from the spec: weighted reciprocal-rank fusion — each arm
containing the document contributes its weight divided by a constant
plus the document's 1-based rank in that arm; a document appearing in
only one arm is scored from that arm alone (§4.5 step 3). -/
def rrfScore (v k : List SDoc) (wV wK : ℚ) (d : SDoc) : ℚ :=
  (match armRank v d with
   | some r => wV / (60 + (r : ℚ) + 1)
   | none => 0) +
  (match armRank k d with
   | some r => wK / (60 + (r : ℚ) + 1)
   | none => 0)

/-- Descending order on fused candidates. -/
def fusedGe (a b : SDoc × ℚ) : Prop := b.2 ≤ a.2

instance : DecidableRel fusedGe := fun a b => inferInstanceAs (Decidable (b.2 ≤ a.2))

instance : IsTotal (SDoc × ℚ) fusedGe := ⟨fun a b => le_total b.2 a.2⟩

instance : IsTrans (SDoc × ℚ) fusedGe := ⟨fun _ _ _ h1 h2 => le_trans h2 h1⟩

/-- Modelled from the spec: the fused candidate ranking produced by the
`$rankFusion` stage that `hybrid_search` constructs — the two arms are
truncated to `limit` each (as the constructed pipeline requests), their
union is deduplicated, scored by weighted reciprocal-rank fusion with
the pipeline's weights, and sorted by descending fused score. -/
def hybridFused (armV armK : List SDoc) (limit : Nat) : List (SDoc × ℚ) :=
  let v := armV.take limit
  let k := armK.take limit
  List.insertionSort fusedGe
    ((v ++ k).dedup.map fun d => (d, rrfScore v k (3 / 5) (2 / 5) d))

/-- `VectorProbe.hybrid_search` (`src/ingestion/vector_probe.py:18-88`):
the fused ranking projected onto `file_name`, `text` and the score, as
the final `$project` stage requests.  No stage of the constructed
pipeline truncates the fused list itself. -/
def hybrid_search (armV armK : List SDoc) (limit : Nat) : List Record :=
  (hybridFused armV armK limit).map fun p =>
    [(fFileName, Val.str p.1.file_name), (fText, Val.str p.1.text),
     (fScore, Val.rat p.2)]

/-! ## Supporting lemmas -/

lemma pyIdx_le_length (l : List Char) (i : Int) : pyIdx l i ≤ l.length :=
  Int.toNat_le.mpr (min_le_right _ _)

lemma pyIdx_add_le (l : List Char) (a mc : Int) (h : 0 ≤ mc) :
    pyIdx l (a + mc) ≤ pyIdx l a + mc.toNat := by
  simp only [pyIdx, Int.max_def, Int.min_def]
  split_ifs <;> omega

lemma pyIdx_natCast (l : List Char) (j : Nat) (h : j ≤ l.length) :
    pyIdx l (j : Int) = j := by
  simp only [pyIdx, Int.max_def, Int.min_def]
  split_ifs <;> omega

lemma pySlice_length_le (l : List Char) (a b : Int) :
    (pySlice l a b).length ≤ pyIdx l b - pyIdx l a := by
  simp only [pySlice, List.length_take]
  omega

lemma pyStrip_length_le (l : List Char) : (pyStrip l).length ≤ l.length := by
  unfold pyStrip
  simp only [List.length_reverse]
  calc ((l.dropWhile isPySpace).reverse.dropWhile isPySpace).length
      ≤ (l.dropWhile isPySpace).reverse.length :=
        ( List.dropWhile_suffix isPySpace).sublist.length_le
    _ = (l.dropWhile isPySpace).length := List.length_reverse _
    _ ≤ l.length := ( List.dropWhile_suffix isPySpace).sublist.length_le

lemma dropWhile_cons_self_imp (p : Char → Bool) (a : Char) (t : List Char)
    (h : (a :: t).dropWhile p = a :: t) : p a = false := by
  by_cases hp : p a
  · rw [List.dropWhile_cons, if_pos hp] at h
    have := ( List.dropWhile_suffix p (l := t)).sublist.length_le
    rw [h] at this
    simp at this
  · exact Bool.of_not_eq_true hp

/-- `pyStrip` is `rdropWhile` after `dropWhile` (same whitespace set). -/
lemma pyStrip_eq_rdropWhile (l : List Char) :
    pyStrip l = List.rdropWhile isPySpace (l.dropWhile isPySpace) := rfl

lemma pyStrip_idem (l : List Char) : pyStrip (pyStrip l) = pyStrip l := by
  set m := l.dropWhile isPySpace with hm
  have hmself : m.dropWhile isPySpace = m := by
    rw [hm]; exact List.dropWhile_idempotent _ _
  have hstep : (List.rdropWhile isPySpace m).dropWhile isPySpace =
      List.rdropWhile isPySpace m := by
    obtain ⟨t, ht⟩ := List.dropWhile_suffix isPySpace (l := m.reverse)
    have hdecomp : m = List.rdropWhile isPySpace m ++ t.reverse := by
      have := congrArg List.reverse ht
      simpa [List.rdropWhile, List.reverse_append] using this.symm
    cases hr : List.rdropWhile isPySpace m with
    | nil => rfl
    | cons a r' =>
      have hma : m = a :: (r' ++ t.reverse) := by rw [hdecomp, hr]; simp
      have hfa : isPySpace a = false := by
        apply dropWhile_cons_self_imp isPySpace a (r' ++ t.reverse)
        rw [← hma, hmself]
      rw [List.dropWhile_cons, hfa]
      simp
  rw [pyStrip_eq_rdropWhile, pyStrip_eq_rdropWhile l, hstep,
    List.rdropWhile_idempotent]

/-- Correctness of the embedded `str.rfind(" ", ...)` scan: a hit is the
greatest space position in the scanned range, a miss means the range has
no space. -/
lemma rfindCnt_spec (l : List Char) (s : Nat) : ∀ n : Nat,
    (∀ j, rfindCnt l s n = some j →
      s ≤ j ∧ j < s + n ∧ l.getD j 'x' = ' ' ∧
      ∀ k, j < k → k < s + n → l.getD k 'x' ≠ ' ') ∧
    (rfindCnt l s n = none → ∀ k, s ≤ k → k < s + n → l.getD k 'x' ≠ ' ') := by
  intro n
  induction n with
  | zero =>
    refine ⟨fun j h => by simp [rfindCnt] at h, fun _ k hk1 hk2 => by omega⟩
  | succ n ih =>
    by_cases hc : l.getD (s + n) 'x' = ' '
    · refine ⟨fun j h => ?_, fun h => ?_⟩
      · rw [rfindCnt, if_pos hc] at h
        obtain rfl : s + n = j := by injection h
        exact ⟨by omega, by omega, hc, fun k hk1 hk2 => by omega⟩
      · rw [rfindCnt, if_pos hc] at h
        cases h
    · refine ⟨fun j h => ?_, fun h k hk1 hk2 => ?_⟩
      · rw [rfindCnt, if_neg hc] at h
        obtain ⟨h1, h2, h3, h4⟩ := ih.1 j h
        refine ⟨h1, by omega, h3, fun k hk1 hk2 => ?_⟩
        by_cases hkn : k = s + n
        · rwa [hkn]
        · exact h4 k hk1 (by omega)
      · rw [rfindCnt, if_neg hc] at h
        by_cases hkn : k = s + n
        · rwa [hkn]
        · exact ih.2 h k hk1 (by omega)

lemma snapEnd_idx_le (l : List Char) (a mc : Int) (h : 0 ≤ mc) :
    pyIdx l (snapEnd l a mc) ≤ pyIdx l a + mc.toNat := by
  simp only [snapEnd]
  split_ifs with hlt
  · cases hr : pyRfindSpace l a (a + mc) with
    | none => simpa using pyIdx_add_le l a mc h
    | some j =>
      simp only
      obtain ⟨h1, h2, _, _⟩ := (rfindCnt_spec l (pyIdx l a)
        (pyIdx l (a + mc) - pyIdx l a)).1 j hr
      have hj : j < pyIdx l (a + mc) := by omega
      have hjlen : j ≤ l.length := le_of_lt (lt_of_lt_of_le hj (pyIdx_le_length _ _))
      rw [pyIdx_natCast l j hjlen]
      have := pyIdx_add_le l a mc h
      omega
  · exact pyIdx_add_le l a mc h

lemma emitChunk_length_le (l : List Char) (a mc : Int) (h : 0 ≤ mc) :
    (emitChunk l a mc).length ≤ mc.toNat := by
  have h1 := pyStrip_length_le (pySlice l a (snapEnd l a mc))
  have h2 := pySlice_length_le l a (snapEnd l a mc)
  have h3 := snapEnd_idx_le l a mc h
  simp only [emitChunk]
  omega

lemma nextAcc_mem (l : List Char) (start mc : Int) (acc : List (List Char))
    (c : List Char) (hc : c ∈ nextAcc l start mc acc) :
    c ∈ acc ∨ (c = emitChunk l start mc ∧ 20 < c.length) := by
  by_cases h20 : 20 < (emitChunk l start mc).length
  · rw [nextAcc, if_pos h20] at hc
    rcases List.mem_append.mp hc with h | h
    · exact Or.inl h
    · rcases List.mem_singleton.mp h with rfl
      exact Or.inr ⟨rfl, h20⟩
  · rw [nextAcc, if_neg h20] at hc
    exact Or.inl hc

/-- Invariant of the scanning loop: every chunk of the final result that
is not inherited from the accumulator is an emitted window chunk — at
most `max_chars` long, longer than 20 characters, and already
stripped. -/
lemma chunkLoop_mem_bound (l : List Char) (mc ov : Int) (hmc : 0 ≤ mc) :
    ∀ (fuel : Nat) (start : Int) (acc cs : List (List Char)),
      chunkLoop l mc ov fuel start acc = some cs →
      (∀ c ∈ acc, c.length ≤ mc.toNat ∧ 20 < c.length ∧ pyStrip c = c) →
      ∀ c ∈ cs, c.length ≤ mc.toNat ∧ 20 < c.length ∧ pyStrip c = c := by
  intro fuel
  induction fuel with
  | zero =>
    intro start acc cs h
    simp [chunkLoop] at h
  | succ n ih =>
    intro start acc cs h hacc
    rw [chunkLoop] at h
    by_cases hs : start < (l.length : Int)
    · rw [if_pos hs] at h
      refine ih _ _ _ h ?_
      intro c hc
      rcases nextAcc_mem l start mc acc c hc with hmem | ⟨rfl, h20⟩
      · exact hacc c hmem
      · exact ⟨emitChunk_length_le l start mc hmc, h20,
          pyStrip_idem (pySlice l start (snapEnd l start mc))⟩
    · rw [if_neg hs] at h
      obtain rfl : acc = cs := by injection h
      exact hacc

/-- C1: the claim's safety rule does not hold of the code — with
`max_chars = 5`, `overlap = 5` and the six-character spaceless text
`"aaaaaa"`, every iteration recomputes `end = 5`, discards the
too-short candidate chunk and sets `start = end - overlap = 0` again;
the guard `start >= end` never fires (it requires `overlap <= 0`), so
the scan never advances and `chunk_text` diverges: the fuel-indexed
embedding returns `none` for every fuel. -/
theorem chunk_text_degenerate_overlap_diverges (fuel : Nat) :
    chunk_text fuel (List.replicate 6 'a') 5 5 = none := by
  have h : ∀ (n : Nat) (acc : List (List Char)),
      chunkLoop (List.replicate 6 'a') 5 5 n 0 acc = none := by
    intro n
    induction n with
    | zero => intro _; rfl
    | succ n ih =>
      intro acc
      calc chunkLoop (List.replicate 6 'a') 5 5 (n + 1) 0 acc
          = chunkLoop (List.replicate 6 'a') 5 5 n 0 acc := rfl
        _ = none := ih acc
  have hne : ¬ (((List.replicate 6 'a').length : Int) ≤ 5) := by decide
  rw [chunk_text, if_neg hne]
  exact h fuel []

/-- C3: for a text no longer than `max_chars`, `chunk_text` returns the
empty sequence when the trimmed length is at most 20, and exactly the
one trimmed chunk when the trimmed length exceeds 20. -/
theorem chunk_text_short_input (fuel : Nat) (text : List Char) (mc ov : Int)
    (h : (text.length : Int) ≤ mc) :
    ((pyStrip text).length ≤ 20 → chunk_text fuel text mc ov = some []) ∧
    (20 < (pyStrip text).length →
      chunk_text fuel text mc ov = some [pyStrip text]) := by
  constructor
  · intro h20
    rw [chunk_text, if_pos h, if_neg (by omega)]
  · intro h20
    rw [chunk_text, if_pos h, if_pos h20]

theorem chunk_text_short_input_witness :
    ((List.replicate 25 'a').length : Int) ≤ 800 ∧
    20 < (pyStrip (List.replicate 25 'a')).length ∧
    chunk_text 1 (List.replicate 25 'a') 800 150 =
      some [pyStrip (List.replicate 25 'a')] :=
  ⟨by decide, by decide,
   (chunk_text_short_input 1 (List.replicate 25 'a') 800 150 (by decide)).2
     (by decide)⟩

/-- C4: for a text longer than `max_chars` (and a non-negative
`max_chars`), every chunk `chunk_text` returns is at most `max_chars`
long and its trimmed length exceeds 20 (emitted chunks are already
stripped, so near-empty fragments are never emitted). -/
theorem chunk_text_long_input_bounds (fuel : Nat) (text : List Char)
    (mc ov : Int) (cs : List (List Char)) (hmc : 0 ≤ mc)
    (hlong : mc < (text.length : Int))
    (hres : chunk_text fuel text mc ov = some cs) :
    ∀ c ∈ cs, (c.length : Int) ≤ mc ∧ 20 < (pyStrip c).length := by
  rw [chunk_text, if_neg (not_le.mpr hlong)] at hres
  intro c hc
  obtain ⟨h1, h2, h3⟩ :=
    chunkLoop_mem_bound text mc ov hmc fuel 0 [] cs hres (by simp) c hc
  refine ⟨by omega, ?_⟩
  rwa [h3]

/-- The sample text of the boundary counterexample: thirty letters, a
newline, thirty more letters. -/
def sampleText : List Char :=
  List.replicate 30 'a' ++ '\n' :: List.replicate 30 'a'

theorem chunk_text_long_input_bounds_witness :
    (0 : Int) ≤ 40 ∧ (40 : Int) < (sampleText.length : Int) ∧
    chunk_text 5 sampleText 40 10 =
      some [List.replicate 30 'a' ++ '\n' :: List.replicate 9 'a',
            List.replicate 30 'a'] ∧
    (((List.replicate 30 'a' ++ '\n' :: List.replicate 9 'a').length : Int) ≤ 40 ∧
      20 < (pyStrip (List.replicate 30 'a' ++ '\n' :: List.replicate 9 'a')).length) :=
  ⟨by decide, by decide, by decide,
   chunk_text_long_input_bounds 5 sampleText 40 10
     [List.replicate 30 'a' ++ '\n' :: List.replicate 9 'a',
      List.replicate 30 'a'] (by decide) (by decide) (by decide)
     (List.replicate 30 'a' ++ '\n' :: List.replicate 9 'a') (by decide)⟩

/-- C5 counterexample: in `sampleText` the window `[0, 40)` ends
strictly before the end of the text and contains the whitespace
character at position 30 (a newline), yet the chunker keeps the hard
cut at 40 — the snapping scans only for the space character `' '` — so
the first emitted chunk is the 40-character hard cut spanning the
newline rather than ending at the whitespace boundary. -/
theorem chunk_snap_ignores_other_whitespace_cex :
    (0 : Int) + 40 < (sampleText.length : Int) ∧
    pyIdx sampleText 0 ≤ 30 ∧ 30 < pyIdx sampleText ((0 : Int) + 40) ∧
    isPySpace (sampleText.getD 30 'x') = true ∧
    snapEnd sampleText 0 40 = 40 ∧
    chunk_text 5 sampleText 40 10 =
      some [List.replicate 30 'a' ++ '\n' :: List.replicate 9 'a',
            List.replicate 30 'a'] ∧
    '\n' ∈ List.replicate 30 'a' ++ '\n' :: List.replicate 9 'a' := by
  refine ⟨by decide, by decide, by decide, by decide, by decide, by decide,
    by decide⟩

/-- C5 amended: when the window's right edge falls strictly before the
end of the text, the boundary is the greatest position of a space
character `' '` in the window when one exists, and the hard cut
`start + max_chars` is kept exactly when the window has no space
character — other whitespace (newline, tab) is not a snapping
boundary. -/
theorem chunk_snap_space_boundary (l : List Char) (start mc : Int)
    (h : start + mc < (l.length : Int)) :
    (∃ j : Nat, snapEnd l start mc = (j : Int) ∧ pyIdx l start ≤ j ∧
      j < pyIdx l (start + mc) ∧ l.getD j 'x' = ' ' ∧
      ∀ k, j < k → k < pyIdx l (start + mc) → l.getD k 'x' ≠ ' ') ∨
    ((∀ k, pyIdx l start ≤ k → k < pyIdx l (start + mc) →
        l.getD k 'x' ≠ ' ') ∧
      snapEnd l start mc = start + mc) := by
  have hs := rfindCnt_spec l (pyIdx l start)
    (pyIdx l (start + mc) - pyIdx l start)
  simp only [snapEnd]
  rw [if_pos h]
  cases hr : pyRfindSpace l start (start + mc) with
  | some j =>
    left
    obtain ⟨h1, h2, h3, h4⟩ := hs.1 j hr
    exact ⟨j, rfl, h1, by omega, h3, fun k hk1 hk2 => h4 k hk1 (by omega)⟩
  | none =>
    right
    exact ⟨fun k hk1 hk2 => hs.2 hr k hk1 (by omega), rfl⟩

/-- A text with a single space, for the boundary witness. -/
def spacedText : List Char :=
  List.replicate 22 'a' ++ ' ' :: List.replicate 22 'b'

theorem chunk_snap_space_boundary_witness :
    (∃ j : Nat, snapEnd spacedText 0 30 = (j : Int) ∧ pyIdx spacedText 0 ≤ j ∧
      j < pyIdx spacedText ((0 : Int) + 30) ∧ spacedText.getD j 'x' = ' ' ∧
      ∀ k, j < k → k < pyIdx spacedText ((0 : Int) + 30) →
        spacedText.getD k 'x' ≠ ' ') ∨
    ((∀ k, pyIdx spacedText 0 ≤ k → k < pyIdx spacedText ((0 : Int) + 30) →
        spacedText.getD k 'x' ≠ ' ') ∧
      snapEnd spacedText 0 30 = (0 : Int) + 30) :=
  chunk_snap_space_boundary spacedText 0 30 (by decide)

/-- C2 counterexample: with a converter that raises on document `b` and
succeeds on document `g`, ingesting `[b, g]` stops at `b` with an empty
collection, no embedding calls and the propagated exception, while
ingesting `[g]` alone stores one record — the failure on the first
document aborted the processing of the next one instead of isolating
it, and no end-of-run report exists in the result. -/
theorem ingest_failure_not_isolated_cex :
    ingestData
        (fun k => if k = ['g'] then Except.ok (List.replicate 30 'a')
          else Except.error PyErr.conversionError)
        (fun chunks => chunks.map fun _ => []) 1 (['b'] :: ['g'] :: [])
        ⟨[], []⟩ =
      some (⟨[], []⟩, some PyErr.conversionError) ∧
    ingestData
        (fun k => if k = ['g'] then Except.ok (List.replicate 30 'a')
          else Except.error PyErr.conversionError)
        (fun chunks => chunks.map fun _ => []) 1 (['g'] :: []) ⟨[], []⟩ =
      some (⟨buildPayloadLocal ['g'] [List.replicate 30 'a'] [[]],
             [[List.replicate 30 'a']]⟩, none) ∧
    (buildPayloadLocal ['g'] [List.replicate 30 'a'] [[]]).length = 1 := by
  refine ⟨by decide, by decide, by decide⟩

/-- C2 amended: a conversion failure on one document aborts the rest of
the run — after a successfully processed prefix, a document whose
conversion raises makes the per-document loop of `ingest_data` return
with the exception, leaving the store as it was after the prefix: the
documents after the failing one are never processed, and there is no
end-of-run failure report. -/
theorem ingest_failure_aborts_run
    (conv : List Char → Except PyErr (List Char))
    (encode : List (List Char) → List (List Int)) (fuel : Nat)
    (pre : List (List Char)) (d : List Char) (post : List (List Char))
    (st st' : SState) (e : PyErr)
    (hpre : localIngestLoop conv encode fuel pre st = some (st', none))
    (hd : conv d = Except.error e) :
    localIngestLoop conv encode fuel (pre ++ d :: post) st =
      some (st', some e) := by
  induction pre generalizing st with
  | nil =>
    obtain rfl : st = st' := by simpa [localIngestLoop] using hpre
    simp [localIngestLoop, hd]
  | cons p rest ih =>
    rw [List.cons_append]
    simp only [localIngestLoop] at hpre ⊢
    cases hconv : conv p with
    | error e2 =>
      rw [hconv] at hpre
      simp at hpre
    | ok content =>
      rw [hconv] at hpre
      dsimp only at hpre ⊢
      cases hch : chunk_text fuel content 800 150 with
      | none =>
        rw [hch] at hpre
        simp at hpre
      | some chunks =>
        rw [hch] at hpre
        dsimp only at hpre ⊢
        by_cases hc : chunks = []
        · rw [if_pos hc] at hpre ⊢
          exact ih _ hpre
        · rw [if_neg hc] at hpre ⊢
          exact ih _ hpre

theorem ingest_failure_aborts_run_witness :
    localIngestLoop
        (fun k => if k = ['g'] then Except.ok (List.replicate 30 'a')
          else Except.error PyErr.conversionError)
        (fun chunks => chunks.map fun _ => []) 1
        ((['g'] :: []) ++ ['b'] :: (['h'] :: [])) ⟨[], []⟩ =
      some (⟨buildPayloadLocal ['g'] [List.replicate 30 'a'] [[]],
             [[List.replicate 30 'a']]⟩, some PyErr.conversionError) :=
  ingest_failure_aborts_run
    (fun k => if k = ['g'] then Except.ok (List.replicate 30 'a')
      else Except.error PyErr.conversionError)
    (fun chunks => chunks.map fun _ => []) 1 (['g'] :: []) ['b']
    (['h'] :: []) ⟨[], []⟩
    ⟨buildPayloadLocal ['g'] [List.replicate 30 'a'] [[]],
     [[List.replicate 30 'a']]⟩
    PyErr.conversionError (by decide) rfl

set_option maxRecDepth 40000 in
/-- C6 counterexample: the legacy ingestion path (`src/ingest.py`,
`RAGPipeline.ingest_data`, lines 121-130) invokes the embedding model
once per chunk — for a document whose text chunks into two pieces, the
embedding-call trace has two entries, not one batch call. -/
theorem legacy_ingest_per_chunk_embedding_cex :
    (legacyIngestDoc (fun _ => []) 3 ['d']
        (List.replicate 600 'a' ++ ' ' :: List.replicate 400 'b')).map
      (fun p => (p.1.length, p.2.length)) = some (2, 2) ∧ (2 : Nat) ≠ 1 :=
  ⟨by decide, by decide⟩

/-- C6 amended: in the `src/ingestion/ingest.py` pipeline, both
`_process_and_store` and the per-document loop of `ingest_data` embed
all chunks of a document in exactly one batch call — the call trace
grows by the single entry `chunks` — whereas the legacy
`src/ingest.py` path embeds per chunk. -/
theorem ingestion_batches_embedding
    (conv : List Char → Except PyErr (List Char))
    (encode : List (List Char) → List (List Int)) (fuel now : Nat)
    (key content : List Char) (st : SState)
    (chunksA chunksB : List (List Char))
    (hconv : conv key = Except.ok content)
    (hchA : chunk_text fuel content 800 100 = some chunksA)
    (hneA : chunksA ≠ [])
    (hchB : chunk_text fuel content 800 150 = some chunksB)
    (hneB : chunksB ≠ []) :
    processAndStore conv encode fuel now key st =
      some (⟨st.store ++ buildPayloadS3 key chunksA (encode chunksA) now,
             st.calls ++ [chunksA]⟩, none) ∧
    localIngestLoop conv encode fuel (key :: []) st =
      some (⟨st.store ++ buildPayloadLocal key chunksB (encode chunksB),
             st.calls ++ [chunksB]⟩, none) := by
  constructor
  · rw [processAndStore, hconv]
    dsimp only
    rw [hchA]
    dsimp only
    rw [if_neg hneA]
  · simp only [localIngestLoop]
    rw [hconv]
    dsimp only
    rw [hchB]
    dsimp only
    rw [if_neg hneB]

theorem ingestion_batches_embedding_witness :
    processAndStore (fun _ => Except.ok (List.replicate 30 'a'))
        (fun chunks => chunks.map fun _ => []) 1 7 ['k'] ⟨[], []⟩ =
      some (⟨([] : List Record) ++
               buildPayloadS3 ['k'] [List.replicate 30 'a'] [[]] 7,
             ([] : List (List (List Char))) ++ [[List.replicate 30 'a']]⟩,
            none) ∧
    localIngestLoop (fun _ => Except.ok (List.replicate 30 'a'))
        (fun chunks => chunks.map fun _ => []) 1 (['k'] :: []) ⟨[], []⟩ =
      some (⟨([] : List Record) ++
               buildPayloadLocal ['k'] [List.replicate 30 'a'] [[]],
             ([] : List (List (List Char))) ++ [[List.replicate 30 'a']]⟩,
            none) :=
  ingestion_batches_embedding (fun _ => Except.ok (List.replicate 30 'a'))
    (fun chunks => chunks.map fun _ => []) 1 7 ['k'] (List.replicate 30 'a')
    ⟨[], []⟩ [List.replicate 30 'a'] [List.replicate 30 'a'] rfl
    (by decide) (by decide) (by decide) (by decide)

/-- The number of records the per-document loop of `ingest_data` adds
for one document: its chunk count when conversion and chunking succeed
(a failing document adds nothing before aborting the run). -/
def docChunkLen (conv : List Char → Except PyErr (List Char)) (fuel : Nat)
    (d : List Char) : Nat :=
  match conv d with
  | .error _ => 0
  | .ok content =>
    match chunk_text fuel content 800 150 with
    | none => 0
    | some chunks => chunks.length

lemma localIngestLoop_count (conv : List Char → Except PyErr (List Char))
    (encode : List (List Char) → List (List Int)) (fuel : Nat) :
    ∀ (docs : List (List Char)) (st out : SState),
      localIngestLoop conv encode fuel docs st = some (out, none) →
      out.store.length =
        st.store.length + (docs.map (docChunkLen conv fuel)).sum := by
  intro docs
  induction docs with
  | nil =>
    intro st out h
    obtain rfl : st = out := by simpa [localIngestLoop] using h
    simp
  | cons d rest ih =>
    intro st out h
    simp only [localIngestLoop] at h
    cases hconv : conv d with
    | error e2 =>
      rw [hconv] at h
      simp at h
    | ok content =>
      rw [hconv] at h
      dsimp only at h
      cases hch : chunk_text fuel content 800 150 with
      | none =>
        rw [hch] at h
        simp at h
      | some chunks =>
        rw [hch] at h
        dsimp only at h
        by_cases hc : chunks = []
        · rw [if_pos hc] at h
          have hrec := ih st out h
          simp only [List.map_cons, List.sum_cons, docChunkLen, hconv, hch, hc]
          simpa using hrec
        · rw [if_neg hc] at h
          have hrec := ih _ _ h
          have hlen :
              (buildPayloadLocal d chunks (encode chunks)).length =
                chunks.length := by
            simp [buildPayloadLocal]
          simp only [List.map_cons, List.sum_cons, docChunkLen, hconv, hch]
          simp only [List.length_append, hlen] at hrec
          omega

/-- C7: a run of `ingest_data` over a non-empty document list fully
replaces the collection — its result does not depend on the store
contents it started from, and a successful run leaves exactly as many
records as the run's own documents produced chunks, not the sum with
any earlier run's records. -/
theorem ingest_full_replace (conv : List Char → Except PyErr (List Char))
    (encode : List (List Char) → List (List Int)) (fuel : Nat)
    (docs : List (List Char)) (hne : docs ≠ []) :
    (∀ s1 s2 cs, ingestData conv encode fuel docs ⟨s1, cs⟩ =
      ingestData conv encode fuel docs ⟨s2, cs⟩) ∧
    (∀ st out, ingestData conv encode fuel docs st = some (out, none) →
      out.store.length = (docs.map (docChunkLen conv fuel)).sum) := by
  obtain ⟨d, rest, rfl⟩ := List.exists_cons_of_ne_nil hne
  constructor
  · intro s1 s2 cs
    rfl
  · intro st out h
    have h2 : localIngestLoop conv encode fuel (d :: rest) ⟨[], st.calls⟩ =
        some (out, none) := h
    simpa using localIngestLoop_count conv encode fuel (d :: rest)
      ⟨[], st.calls⟩ out h2

theorem ingest_full_replace_witness :
    (['g'] :: []) ≠ ([] : List (List Char)) ∧
    ingestData (fun _ => Except.ok (List.replicate 30 'a'))
        (fun chunks => chunks.map fun _ => []) 1 (['g'] :: [])
        ⟨[[]], [[List.replicate 9 'z']]⟩ =
      ingestData (fun _ => Except.ok (List.replicate 30 'a'))
        (fun chunks => chunks.map fun _ => []) 1 (['g'] :: [])
        ⟨[], [[List.replicate 9 'z']]⟩ ∧
    (⟨buildPayloadLocal ['g'] [List.replicate 30 'a'] [[]],
      [[List.replicate 30 'a']]⟩ : SState).store.length =
      ((['g'] :: []).map
        (docChunkLen (fun _ => Except.ok (List.replicate 30 'a')) 1)).sum :=
  ⟨by decide,
   (ingest_full_replace (fun _ => Except.ok (List.replicate 30 'a'))
      (fun chunks => chunks.map fun _ => []) 1 (['g'] :: [])
      (by decide)).1 [[]] [] [[List.replicate 9 'z']],
   (ingest_full_replace (fun _ => Except.ok (List.replicate 30 'a'))
      (fun chunks => chunks.map fun _ => []) 1 (['g'] :: [])
      (by decide)).2 ⟨[], []⟩
     ⟨buildPayloadLocal ['g'] [List.replicate 30 'a'] [[]],
      [[List.replicate 30 'a']]⟩ (by decide)⟩

/-- C8 counterexample: the records bulk-inserted by the local-ingestion
path (`RAGPipeline.ingest_data`, `src/ingestion/ingest.py:243-251`)
carry no `ingested_at` field — ingesting one document stores one record
whose `ingested_at` lookup is `none`. -/
theorem local_ingest_record_missing_timestamp_cex :
    (ingestData (fun _ => Except.ok (List.replicate 30 'a'))
        (fun chunks => chunks.map fun _ => []) 1 (['g'] :: []) ⟨[], []⟩).map
      (fun p => p.1.store.map fun r => r.lookup fIngestedAt) =
      some (none :: []) ∧
    (ingestData (fun _ => Except.ok (List.replicate 30 'a'))
        (fun chunks => chunks.map fun _ => []) 1 (['g'] :: []) ⟨[], []⟩).map
      (fun p => p.1.store.length) = some 1 :=
  ⟨by decide, by decide⟩

/-- C8 amended: both payload builders produce one record per chunk, in
chunk order, with `chunk_id` exactly the positions `0..n-1` and the
embedding of position `i` taken from position `i` of the batch result;
the S3 path's records carry the five fields including `ingested_at`,
while the local path's records carry only the other four. -/
theorem ingest_payload_fields (name : List Char)
    (chunks : List (List Char)) (embs : List (List Int)) (now : Nat) :
    (buildPayloadS3 name chunks embs now).length = chunks.length ∧
    (buildPayloadLocal name chunks embs).length = chunks.length ∧
    ((buildPayloadS3 name chunks embs now).map fun r => r.lookup fChunkId) =
      ((List.range chunks.length).map fun i => some (Val.nat i)) ∧
    (∀ i, i < chunks.length →
      (buildPayloadS3 name chunks embs now).getD i [] =
        [(fFileName, Val.str name), (fChunkId, Val.nat i),
         (fText, Val.str (chunks.getD i [])),
         (fEmbedding, Val.vec (embs.getD i [])),
         (fIngestedAt, Val.time now)]) ∧
    (∀ i, i < chunks.length →
      (buildPayloadLocal name chunks embs).getD i [] =
        [(fFileName, Val.str name), (fChunkId, Val.nat i),
         (fText, Val.str (chunks.getD i [])),
         (fEmbedding, Val.vec (embs.getD i []))]) := by
  refine ⟨by simp [buildPayloadS3], by simp [buildPayloadLocal], ?_, ?_, ?_⟩
  · simp only [buildPayloadS3, List.map_map]
    have hcomp : ∀ p : Nat × List Char,
        (List.lookup fChunkId
          [(fFileName, Val.str name), (fChunkId, Val.nat p.1),
           (fText, Val.str p.2), (fEmbedding, Val.vec (embs.getD p.1 [])),
           (fIngestedAt, Val.time now)]) = some (Val.nat p.1) :=
      fun p => rfl
    calc chunks.enum.map _
        = chunks.enum.map (fun p => some (Val.nat p.1)) := by
          refine List.map_congr_left fun p _ => hcomp p
      _ = (chunks.enum.map Prod.fst).map (fun i => some (Val.nat i)) := by
          rw [List.map_map]; rfl
      _ = (List.range chunks.length).map (fun i => some (Val.nat i)) := by
          rw [List.enum_map_fst]
  · intro i hi
    have hlen : i < (buildPayloadS3 name chunks embs now).length := by
      simpa [buildPayloadS3] using hi
    rw [List.getD_eq_getElem _ _ hlen]
    simp only [buildPayloadS3, List.getElem_map,
      List.getElem_enum _ _ (by simpa using hi)]
    rw [List.getD_eq_getElem chunks [] hi]
  · intro i hi
    have hlen : i < (buildPayloadLocal name chunks embs).length := by
      simpa [buildPayloadLocal] using hi
    rw [List.getD_eq_getElem _ _ hlen]
    simp only [buildPayloadLocal, List.getElem_map,
      List.getElem_enum _ _ (by simpa using hi)]
    rw [List.getD_eq_getElem chunks [] hi]

theorem ingest_payload_fields_witness :
    (buildPayloadS3 ['n'] [['x'], ['y']] [[7], [8]] 5).length = 2 ∧
    (buildPayloadS3 ['n'] [['x'], ['y']] [[7], [8]] 5).getD 1 [] =
      [(fFileName, Val.str ['n']), (fChunkId, Val.nat 1),
       (fText, Val.str (([['x'], ['y']] : List (List Char)).getD 1 [])),
       (fEmbedding, Val.vec (([[7], [8]] : List (List Int)).getD 1 [])),
       (fIngestedAt, Val.time 5)] :=
  ⟨(ingest_payload_fields ['n'] [['x'], ['y']] [[7], [8]] 5).1,
   (ingest_payload_fields ['n'] [['x'], ['y']] [[7], [8]] 5).2.2.2.1 1
     (by decide)⟩

/-- C10: the S3-ingestion entry point returns before the collection
delete when the object listing has no `Contents` (the store keeps its
prior records unchanged), and for a non-empty listing containing no
`.pdf` key it deletes everything and inserts nothing, leaving the
collection empty. -/
theorem s3_ingest_empty_listing_behavior
    (conv : List Char → Except PyErr (List Char))
    (encode : List (List Char) → List (List Int)) (fuel now : Nat)
    (st : SState) (keys : List (List Char)) (hne : keys ≠ [])
    (hnopdf : ∀ k ∈ keys, isPdfKey k = false) :
    ingestFromS3 conv encode fuel now none st = some (st, none) ∧
    ingestFromS3 conv encode fuel now (some keys) st =
      some (⟨[], st.calls⟩, none) := by
  refine ⟨rfl, ?_⟩
  have hloop : ∀ (ks : List (List Char)) (st' : SState),
      (∀ k ∈ ks, isPdfKey k = false) →
      s3IngestLoop conv encode fuel now ks st' = some (st', none) := by
    intro ks
    induction ks with
    | nil => intro st' _; rfl
    | cons k rest ih =>
      intro st' hall
      have hk : isPdfKey k = false := hall k (by simp)
      simp only [s3IngestLoop, hk, Bool.false_eq_true, if_false]
      exact ih st' fun x hx => hall x (by simp [hx])
  exact hloop keys ⟨[], st.calls⟩ hnopdf

theorem s3_ingest_empty_listing_behavior_witness :
    (('x' :: '.' :: 't' :: 'x' :: 't' :: []) :: []) ≠
      ([] : List (List Char)) ∧
    ingestFromS3 (fun _ => Except.ok []) (fun _ => []) 1 0 none
      ⟨[[]], [[['q']]]⟩ = some (⟨[[]], [[['q']]]⟩, none) ∧
    ingestFromS3 (fun _ => Except.ok []) (fun _ => []) 1 0
      (some ((('x' :: '.' :: 't' :: 'x' :: 't' :: []) :: [])))
      ⟨[[]], [[['q']]]⟩ = some (⟨[], [[['q']]]⟩, none) :=
  ⟨by decide,
   (s3_ingest_empty_listing_behavior (fun _ => Except.ok []) (fun _ => [])
      1 0 ⟨[[]], [[['q']]]⟩ (('x' :: '.' :: 't' :: 'x' :: 't' :: []) :: [])
      (by decide) (by decide)).1,
   (s3_ingest_empty_listing_behavior (fun _ => Except.ok []) (fun _ => [])
      1 0 ⟨[[]], [[['q']]]⟩ (('x' :: '.' :: 't' :: 'x' :: 't' :: []) :: [])
      (by decide) (by decide)).2⟩

/-- Two stored documents with distinct identities, one per retrieval
arm. -/
def docA : SDoc := ⟨0, ['a'], ['x']⟩

def docB : SDoc := ⟨1, ['b'], ['y']⟩

/-- C9 counterexample: the constructed pipeline limits each arm to
`limit` candidates but never truncates the fused union — with disjoint
arms of one candidate each and `limit = 1`, the search returns two
results, more than the requested limit. -/
theorem hybrid_search_exceeds_limit_cex :
    (hybrid_search (docA :: []) (docB :: []) 1).length = 2 ∧
    ¬ ((hybrid_search (docA :: []) (docB :: []) 1).length ≤ 1) := by
  have h : (hybrid_search (docA :: []) (docB :: []) 1).length = 2 := by
    simp only [hybrid_search, hybridFused, List.length_map,
      List.length_insertionSort]
    decide
  refine ⟨h, ?_⟩
  rw [h]
  decide

/-- C9 amended: the search returns at most `2 * limit` results (at most
`limit` from each arm), each projecting exactly `file_name`, `text` and
the fused score, and the fused candidate ranking is sorted by
descending fused score (weights 0.6 / 0.4 in the fusion). -/
theorem hybrid_search_shape (armV armK : List SDoc) (limit : Nat) :
    (hybrid_search armV armK limit).length ≤ 2 * limit ∧
    (∀ r ∈ hybrid_search armV armK limit,
      r.map Prod.fst = [fFileName, fText, fScore]) ∧
    List.Sorted fusedGe (hybridFused armV armK limit) := by
  refine ⟨?_, ?_, ?_⟩
  · have h1 : ((armV.take limit ++ armK.take limit).dedup).length ≤
        (armV.take limit ++ armK.take limit).length :=
      (List.dedup_sublist _).length_le
    have h2 : (armV.take limit).length ≤ limit := by
      rw [List.length_take]; omega
    have h3 : (armK.take limit).length ≤ limit := by
      rw [List.length_take]; omega
    simp only [hybrid_search, hybridFused, List.length_map,
      List.length_insertionSort]
    simp only [List.length_append] at h1
    omega
  · intro r hr
    simp only [hybrid_search, List.mem_map] at hr
    obtain ⟨p, hp, rfl⟩ := hr
    rfl
  · exact List.sorted_insertionSort fusedGe _

theorem hybrid_search_shape_witness :
    (hybrid_search (docA :: []) (docB :: []) 1).length ≤ 2 * 1 ∧
    ([(fFileName, Val.str docA.file_name), (fText, Val.str docA.text),
      (fScore, Val.rat (rrfScore ((docA :: []).take 1) ((docB :: []).take 1)
        (3 / 5) (2 / 5) docA))] : Record).map Prod.fst =
      [fFileName, fText, fScore] :=
  ⟨(hybrid_search_shape (docA :: []) (docB :: []) 1).1,
   (hybrid_search_shape (docA :: []) (docB :: []) 1).2.1
     [(fFileName, Val.str docA.file_name), (fText, Val.str docA.text),
      (fScore, Val.rat (rrfScore ((docA :: []).take 1) ((docB :: []).take 1)
        (3 / 5) (2 / 5) docA))]
     (by
       simp only [hybrid_search, List.mem_map]
       refine ⟨(docA, rrfScore ((docA :: []).take 1) ((docB :: []).take 1)
         (3 / 5) (2 / 5) docA), ?_, rfl⟩
       simp only [hybridFused]
       rw [(List.perm_insertionSort fusedGe _).mem_iff]
       simp only [List.mem_map]
       exact ⟨docA, by decide, rfl⟩)⟩
